import Mathlib

/-!
# Verification of the `ps` command-namespace subsystem

A shallow embedding of the core of the `ps` repository (files `ps/util.py`
and `ps/base.py`): the string-to-identifier sanitizer, the identifier
mapping with collision detection, the PATH scanner, the command invoker
and the command namespace.  Python strings are modelled as Lean `String`s
with ASCII character classes (`\W`, `\d`, `str.isidentifier` read over
`[A-Za-z0-9_]`), Python dicts as insertion-ordered association lists, and
fallible functions return `Except`.
-/

namespace Ps

/-! ## Identifier sanitizer (`ps/util.py`, `str_to_identifier`) -/

/-- A "word" character in the sense of the regex class `\w`
(ASCII reading): letters, digits and the underscore. -/
def isWordChar (c : Char) : Bool :=
  c.isAlphanum || c = '_'

/-- Model of `re.sub('\W', '_', string)`: replace every non-word character by an
underscore. -/
def _replace_all_non_alphnumerics_with_underscore (s : String) : String :=
  ⟨s.data.map (fun c => if isWordChar c then c else '_')⟩

/-- Model of `_first_character_is_a_digit`: raises `ValueError('string was empty')`
on the empty string, otherwise tests `re.match('\d', first_character)`. -/
def _first_character_is_a_digit (s : String) : Except String Bool :=
  match s.data with
  | [] => .error "string was empty"
  | c :: _ => .ok c.isDigit

/-- Model of `_prefix_with_underscore_if_starts_with_digit`. -/
def _prefix_with_underscore_if_starts_with_digit (s : String) :
    Except String String :=
  match _first_character_is_a_digit s with
  | .error e => .error e
  | .ok true => .ok ("_" ++ s)
  | .ok false => .ok s

/-- Model of `str_to_identifier`: replace non-word characters by underscores, then
prefix with an underscore when the first character is a digit. -/
def str_to_identifier (s : String) : Except String String :=
  _prefix_with_underscore_if_starts_with_digit
    (_replace_all_non_alphnumerics_with_underscore s)

/-- The sanitized string as the specification describes it: every
character outside `[A-Za-z0-9_]` replaced by `_`, then an underscore
prefixed exactly when the first character of the result is a digit. -/
def sanitizedSpec (s : String) : String :=
  let m : String := ⟨s.data.map (fun c => if isWordChar c then c else '_')⟩
  match m.data with
  | [] => m
  | c :: _ => if c.isDigit then "_" ++ m else m

theorem replace_data (s : String) :
    (_replace_all_non_alphnumerics_with_underscore s).data
      = s.data.map (fun c => if isWordChar c then c else '_') := rfl

theorem map_wordChar_id (l : List Char) (h : ∀ c ∈ l, isWordChar c) :
    l.map (fun c => if isWordChar c then c else '_') = l := by
  induction l with
  | nil => rfl
  | cons c cs ih =>
      have hc : isWordChar c := h c (List.mem_cons_self ..)
      simp only [List.map_cons, hc, if_pos]
      exact congrArg (c :: ·) (ih (fun d hd => h d (List.mem_cons_of_mem _ hd)))

theorem replace_wordChars (s : String)
    (h : ∀ c ∈ s.data, isWordChar c) :
    _replace_all_non_alphnumerics_with_underscore s = s := by
  unfold _replace_all_non_alphnumerics_with_underscore
  rw [map_wordChar_id s.data h]

theorem replace_all_word (s : String) :
    ∀ c ∈ (_replace_all_non_alphnumerics_with_underscore s).data,
      isWordChar c = true := by
  intro c hc
  rw [replace_data] at hc
  obtain ⟨a, _, ha⟩ := List.mem_map.mp hc
  by_cases hw : isWordChar a
  · rw [if_pos hw] at ha
    exact ha ▸ hw
  · rw [if_neg hw] at ha
    subst ha
    decide

theorem data_ne_nil_of_ne_empty (s : String) (h : s ≠ "") : s.data ≠ [] := by
  intro hnil
  apply h
  cases s
  simp only at hnil
  subst hnil
  rfl

theorem prefix_of_cons (s : String) (c : Char) (l : List Char)
    (h : s.data = c :: l) :
    _prefix_with_underscore_if_starts_with_digit s
      = .ok (if c.isDigit then "_" ++ s else s) := by
  unfold _prefix_with_underscore_if_starts_with_digit _first_character_is_a_digit
  rw [h]
  cases hc : c.isDigit <;> simp [hc]

theorem str_to_identifier_fixed (t : String) (c : Char) (rest : List Char)
    (h : t.data = c :: rest) (hw : ∀ d ∈ t.data, isWordChar d)
    (hc : c.isDigit = false) : str_to_identifier t = .ok t := by
  rw [str_to_identifier, replace_wordChars t hw, prefix_of_cons t c rest h, hc]
  simp

/-- C3: for every non-empty input string `s`, `str_to_identifier s`
replaces each character outside `[A-Za-z0-9_]` with an underscore and
then prefixes the result with an underscore exactly when its first
character is a digit; in particular the two doctest examples hold. -/
theorem str_to_identifier_spec_correct (s : String) (h : s ≠ "") :
    str_to_identifier s = .ok (sanitizedSpec s)
    ∧ str_to_identifier "a-string$with@non*identifier(characters)"
        = .ok "a_string_with_non_identifier_characters_"
    ∧ str_to_identifier "123go" = .ok "_123go" := by
  refine ⟨?_, rfl, rfl⟩
  obtain ⟨c, rest, hsd⟩ : ∃ c rest, s.data = c :: rest := by
    cases hsd : s.data with
    | nil => exact absurd hsd (data_ne_nil_of_ne_empty s h)
    | cons c rest => exact ⟨c, rest, rfl⟩
  have hm : (_replace_all_non_alphnumerics_with_underscore s).data
      = (if isWordChar c then c else '_')
        :: rest.map (fun d => if isWordChar d then d else '_') := by
    rw [replace_data, hsd, List.map_cons]
  rw [str_to_identifier,
    prefix_of_cons _ _ _ hm]
  unfold sanitizedSpec
  have hrepl : (⟨s.data.map (fun d => if isWordChar d then d else '_')⟩ : String)
      = _replace_all_non_alphnumerics_with_underscore s := rfl
  have hXY : _replace_all_non_alphnumerics_with_underscore s
      = (⟨(if isWordChar c then c else '_')
            :: rest.map (fun d => if isWordChar d then d else '_')⟩ : String) :=
    congrArg String.mk hm
  simp only [hrepl, hsd, List.map_cons, ← hXY]

/-- C4: the sanitizer is idempotent on non-empty strings, and is the
identity on non-empty strings of `[A-Za-z0-9_]` characters whose first
character is not a digit. -/
theorem str_to_identifier_idempotent (s : String) (h : s ≠ "") :
    (∃ t, str_to_identifier s = .ok t ∧ str_to_identifier t = .ok t)
    ∧ ((∀ c ∈ s.data, isWordChar c) →
       (s.data.head?.map Char.isDigit).getD false = false →
       str_to_identifier s = .ok s) := by
  constructor
  · obtain ⟨c, rest, hsd⟩ : ∃ c rest, s.data = c :: rest := by
      cases hsd : s.data with
      | nil => exact absurd hsd (data_ne_nil_of_ne_empty s h)
      | cons c rest => exact ⟨c, rest, rfl⟩
    set m := _replace_all_non_alphnumerics_with_underscore s with hmdef
    have hm : m.data = (if isWordChar c then c else '_')
        :: rest.map (fun d => if isWordChar d then d else '_') := by
      rw [hmdef, replace_data, hsd, List.map_cons]
    have hword : ∀ d ∈ m.data, isWordChar d := fun d hd =>
      replace_all_word s d hd
    have hstep : str_to_identifier s
        = .ok (if (if isWordChar c then c else '_').isDigit
               then "_" ++ m else m) := by
      rw [str_to_identifier, ← hmdef, prefix_of_cons _ _ _ hm]
    by_cases hdig : (if isWordChar c then c else '_').isDigit
    · refine ⟨"_" ++ m, by rw [hstep, if_pos hdig], ?_⟩
      have hdata : ("_" ++ m).data = '_' :: m.data := by
        simp [String.data_append]
      refine str_to_identifier_fixed _ '_' m.data hdata ?_ (by decide)
      intro d hd
      rw [hdata] at hd
      rcases List.mem_cons.mp hd with h1 | h2
      · subst h1; decide
      · exact hword d h2
    · refine ⟨m, by rw [hstep, if_neg hdig], ?_⟩
      refine str_to_identifier_fixed m _ _ hm hword ?_
      simpa using hdig
  · intro hw hd
    obtain ⟨c, rest, hsd⟩ : ∃ c rest, s.data = c :: rest := by
      cases hsd : s.data with
      | nil => exact absurd hsd (data_ne_nil_of_ne_empty s h)
      | cons c rest => exact ⟨c, rest, rfl⟩
    refine str_to_identifier_fixed s c rest hsd hw ?_
    rw [hsd] at hd
    simpa using hd

/-- Witness for C4 at concrete inputs. -/
theorem str_to_identifier_idempotent_witness :
    (∃ t, str_to_identifier "a-b" = .ok t ∧ str_to_identifier t = .ok t)
    ∧ str_to_identifier "ab" = .ok "ab" :=
  ⟨(str_to_identifier_idempotent "a-b" (by decide)).1,
   (str_to_identifier_idempotent "ab" (by decide)).2 (by decide) (by decide)⟩

/-- Witness for C3 at a concrete input. -/
theorem str_to_identifier_spec_correct_witness :
    str_to_identifier "a.b" = .ok (sanitizedSpec "a.b")
    ∧ str_to_identifier "a-string$with@non*identifier(characters)"
        = .ok "a_string_with_non_identifier_characters_"
    ∧ str_to_identifier "123go" = .ok "_123go" :=
  str_to_identifier_spec_correct "a.b" (by decide)

/-- C5: the sanitizer fails exactly on the empty string; a string of
only non-identifier characters sanitizes to all underscores. -/
theorem str_to_identifier_error_iff_empty :
    (∀ s : String, (∃ e, str_to_identifier s = .error e) ↔ s = "")
    ∧ str_to_identifier "@#$" = .ok "___" := by
  refine ⟨fun s => ⟨?_, ?_⟩, rfl⟩
  · rintro ⟨e, he⟩
    by_contra hne
    rw [(str_to_identifier_spec_correct s hne).1] at he
    exact Except.noConfusion he
  · rintro rfl
    exact ⟨"string was empty", rfl⟩

/-! ## Python dict and grouping primitives

Python dicts are modelled as insertion-ordered association lists with
unique keys: inserting an existing key updates its value in place,
inserting a fresh key appends. -/

section Dicts

variable {K V : Type} [DecidableEq K]

/-- One assignment `d[k] = v` on a Python dict. -/
def pyDictInsert (d : List (K × V)) (k : K) (v : V) : List (K × V) :=
  match d with
  | [] => [(k, v)]
  | (k', v') :: rest =>
      if k' = k then (k', v) :: rest else (k', v') :: pyDictInsert rest k v

/-- The Python dict produced by inserting a sequence of key-value pairs
in order (the semantics of a dict comprehension). -/
def pyDictOfList (pairs : List (K × V)) : List (K × V) :=
  pairs.foldl (fun d p => pyDictInsert d p.1 p.2) []

/-- One step of `defaultdict(list)` grouping: append `v` to the group of
key `k`, creating the group when the key is fresh. -/
def groupAppend (d : List (K × List V)) (k : K) (v : V) : List (K × List V) :=
  match d with
  | [] => [(k, [v])]
  | (k', vs) :: rest =>
      if k' = k then (k', vs ++ [v]) :: rest else (k', vs) :: groupAppend rest k v

/-- Group the second components of a pair list by their first components,
keys in first-occurrence order, each group in input order. -/
def groupPairs (pairs : List (K × V)) : List (K × List V) :=
  pairs.foldl (fun d p => groupAppend d p.1 p.2) []

/-- The groups of `groupPairs` that have at least two members. -/
def gatherPairs (pairs : List (K × V)) : List (K × List V) :=
  (groupPairs pairs).filter (fun p => 1 < p.2.length)

/-- Model of `_gather_duplicates` (`ps/util.py`): group `values` by
`value_to_group_key` and keep only the groups with more than one
member. -/
def _gather_duplicates (values : List V) (f : V → K) : List (K × List V) :=
  gatherPairs (values.map (fun v => (f v, v)))

theorem pyDictInsert_fresh (d : List (K × V)) (k : K) (v : V)
    (h : k ∉ d.map Prod.fst) : pyDictInsert d k v = d ++ [(k, v)] := by
  induction d with
  | nil => rfl
  | cons p rest ih =>
      obtain ⟨k', v'⟩ := p
      simp only [List.map_cons, List.mem_cons] at h
      push_neg at h
      simp only [pyDictInsert]
      rw [if_neg (fun hh => h.1 hh.symm), ih h.2]
      simp

theorem pyDictInsert_length (d : List (K × V)) (k : K) (v : V) :
    (pyDictInsert d k v).length
      = if k ∈ d.map Prod.fst then d.length else d.length + 1 := by
  induction d with
  | nil => simp [pyDictInsert]
  | cons p rest ih =>
      obtain ⟨k', v'⟩ := p
      by_cases hk : k' = k
      · subst hk
        simp [pyDictInsert]
      · have hne : k ≠ k' := Ne.symm hk
        simp only [pyDictInsert, if_neg hk, List.length_cons, ih,
          List.map_cons, List.mem_cons]
        by_cases hm : k ∈ rest.map Prod.fst <;>
          simp [hm, hne]

theorem pyDictOfList_foldl_le (pairs : List (K × V)) :
    ∀ d : List (K × V),
      (pairs.foldl (fun d p => pyDictInsert d p.1 p.2) d).length
        ≤ d.length + pairs.length := by
  induction pairs with
  | nil => intro d; simp
  | cons p rest ih =>
      intro d
      calc (List.foldl (fun d p => pyDictInsert d p.1 p.2)
              (pyDictInsert d p.1 p.2) rest).length
          ≤ (pyDictInsert d p.1 p.2).length + rest.length := ih _
        _ ≤ (d.length + 1) + rest.length := by
            rw [pyDictInsert_length]
            split <;> omega
        _ = d.length + (rest.length + 1) := by omega
        _ = d.length + (p :: rest).length := by simp

theorem pyDictOfList_of_nodup_keys_aux (pairs : List (K × V)) :
    ∀ d : List (K × V), ((d ++ pairs).map Prod.fst).Nodup →
      pairs.foldl (fun d p => pyDictInsert d p.1 p.2) d = d ++ pairs := by
  induction pairs with
  | nil => intro d _; simp
  | cons p rest ih =>
      intro d hnd
      have hfresh : p.1 ∉ d.map Prod.fst := by
        intro hmem
        rw [List.map_append] at hnd
        obtain ⟨q, hq, hq1⟩ := List.mem_map.mp hmem
        have hdisj := List.disjoint_of_nodup_append hnd
        exact hdisj hmem (by simp)
      have hstep : pyDictInsert d p.1 p.2 = d ++ [p] := by
        rw [pyDictInsert_fresh d p.1 p.2 hfresh]
      simp only [List.foldl_cons, hstep]
      have hre : (d ++ [p]) ++ rest = d ++ p :: rest := by
        simp
      rw [ih (d ++ [p]) (by rw [hre]; exact hnd), hre]

/-- When all keys are distinct, the Python dict of a pair list is that
pair list itself. -/
theorem pyDictOfList_of_nodup_keys (pairs : List (K × V))
    (h : (pairs.map Prod.fst).Nodup) : pyDictOfList pairs = pairs := by
  have := pyDictOfList_of_nodup_keys_aux pairs [] (by simpa using h)
  simpa [pyDictOfList] using this

theorem pyDictOfList_length_eq_iff_aux (pairs : List (K × V)) :
    ∀ d : List (K × V), (d.map Prod.fst).Nodup →
      (pairs.foldl (fun d p => pyDictInsert d p.1 p.2) d).length
          = d.length + pairs.length →
      ((d ++ pairs).map Prod.fst).Nodup := by
  induction pairs with
  | nil => intro d hd _; simpa using hd
  | cons p rest ih =>
      intro d hd hlen
      by_cases hfresh : p.1 ∈ d.map Prod.fst
      · exfalso
        have h1 : (pyDictInsert d p.1 p.2).length = d.length := by
          rw [pyDictInsert_length, if_pos hfresh]
        have h2 := pyDictOfList_foldl_le rest (pyDictInsert d p.1 p.2)
        rw [h1] at h2
        simp only [List.foldl_cons] at hlen
        rw [hlen] at h2
        simp only [List.length_cons] at h2
        omega
      · have hstep : pyDictInsert d p.1 p.2 = d ++ [p] :=
          pyDictInsert_fresh d p.1 p.2 hfresh
        have hd' : ((d ++ [p]).map Prod.fst).Nodup := by
          rw [List.map_append]
          refine List.Nodup.append hd (by simp) ?_
          intro a ha hb
          simp only [List.map_cons, List.map_nil, List.mem_singleton] at hb
          exact hfresh (hb ▸ ha)
        have hlen' : (rest.foldl (fun d p => pyDictInsert d p.1 p.2)
            (d ++ [p])).length = (d ++ [p]).length + rest.length := by
          simp only [List.foldl_cons, hstep] at hlen
          rw [hlen]
          simp only [List.length_cons, List.length_append, List.length_nil]
          omega
        have := ih (d ++ [p]) hd' hlen'
        have hre : (d ++ [p]) ++ rest = d ++ p :: rest := by simp
        rwa [hre] at this

/-- The Python dict of a pair list keeps all pairs exactly when the keys
are pairwise distinct. -/
theorem pyDictOfList_length_eq_iff (pairs : List (K × V)) :
    (pyDictOfList pairs).length = pairs.length ↔ (pairs.map Prod.fst).Nodup := by
  constructor
  · intro h
    have := pyDictOfList_length_eq_iff_aux pairs [] (by simp)
      (by simpa [pyDictOfList] using h)
    simpa using this
  · intro h
    rw [pyDictOfList_of_nodup_keys pairs h]

/-- The second components of the pairs whose first component is `k`,
in order: the "fiber" of `k`. -/
def fiberSnd (pairs : List (K × V)) (k : K) : List V :=
  (pairs.filter (fun p => p.1 = k)).map Prod.snd

theorem groupAppend_keys (d : List (K × List V)) (k : K) (v : V) :
    (groupAppend d k v).map Prod.fst
      = if k ∈ d.map Prod.fst then d.map Prod.fst
        else d.map Prod.fst ++ [k] := by
  induction d with
  | nil => simp [groupAppend]
  | cons p rest ih =>
      obtain ⟨k', vs⟩ := p
      by_cases hk : k' = k
      · subst hk
        simp [groupAppend]
      · have hne : k ≠ k' := Ne.symm hk
        simp only [groupAppend, if_neg hk, List.map_cons, ih, List.mem_cons]
        by_cases hm : k ∈ rest.map Prod.fst <;> simp [hm, hne]

theorem groupAppend_mem_ne (d : List (K × List V)) (k : K) (v : V)
    (a : K) (g : List V) (hne : a ≠ k) :
    ((a, g) ∈ groupAppend d k v ↔ (a, g) ∈ d) := by
  induction d with
  | nil => simp [groupAppend, hne]
  | cons p rest ih =>
      obtain ⟨k', vs⟩ := p
      by_cases hk : k' = k
      · subst hk
        simp [groupAppend, List.mem_cons, hne]
      · simp [groupAppend, hk, List.mem_cons, ih]

theorem groupAppend_mem_self (d : List (K × List V)) (k : K) (v : V)
    (g : List V) (hnd : (d.map Prod.fst).Nodup) :
    ((k, g) ∈ groupAppend d k v ↔
      (k ∉ d.map Prod.fst ∧ g = [v])
      ∨ ∃ g₀, (k, g₀) ∈ d ∧ g = g₀ ++ [v]) := by
  induction d with
  | nil => simp [groupAppend]
  | cons p rest ih =>
      obtain ⟨k', vs⟩ := p
      simp only [List.map_cons, List.nodup_cons] at hnd
      by_cases hk : k' = k
      · subst hk
        have hknotin : ∀ g₀ : List V, (k', g₀) ∉ rest := fun g₀ hg₀ =>
          hnd.1 (List.mem_map.mpr ⟨(k', g₀), hg₀, rfl⟩)
        simp [groupAppend, List.mem_cons, hknotin]
      · have hne : k ≠ k' := Ne.symm hk
        simp [groupAppend, hk, List.mem_cons, ih hnd.2, hne]

theorem groupPairs_concat (xs : List (K × V)) (x : K × V) :
    groupPairs (xs ++ [x]) = groupAppend (groupPairs xs) x.1 x.2 := by
  simp [groupPairs, List.foldl_append]

theorem fiberSnd_concat (xs : List (K × V)) (x : K × V) (k : K) :
    fiberSnd (xs ++ [x]) k
      = fiberSnd xs k ++ (if x.1 = k then [x.2] else []) := by
  unfold fiberSnd
  rw [List.filter_append]
  by_cases hx : x.1 = k <;> simp [hx]

theorem groupPairs_represents (pairs : List (K × V)) :
    ((groupPairs pairs).map Prod.fst).Nodup
    ∧ (∀ k g, (k, g) ∈ groupPairs pairs → g = fiberSnd pairs k)
    ∧ (∀ k, k ∈ (groupPairs pairs).map Prod.fst ↔ ∃ p ∈ pairs, p.1 = k) := by
  induction pairs using List.reverseRecOn with
  | nil => simp [groupPairs, fiberSnd]
  | append_singleton xs x ih =>
      obtain ⟨hnd, hmem, hkey⟩ := ih
      obtain ⟨xk, xv⟩ := x
      rw [groupPairs_concat]
      refine ⟨?_, ?_, ?_⟩
      · rw [groupAppend_keys]
        by_cases hin : xk ∈ (groupPairs xs).map Prod.fst
        · rw [if_pos hin]
          exact hnd
        · rw [if_neg hin]
          refine hnd.append (List.nodup_singleton xk) ?_
          intro a ha hb
          simp only [List.mem_singleton] at hb
          subst hb
          exact hin ha
      · intro k g hg
        by_cases hk : k = xk
        · subst hk
          rcases (groupAppend_mem_self _ _ _ _ hnd).mp hg with
            ⟨hnotin, rfl⟩ | ⟨g₀, hg₀, rfl⟩
          · have hfib : fiberSnd xs k = [] := by
              unfold fiberSnd
              have hfil : xs.filter (fun p => p.1 = k) = [] := by
                rw [List.filter_eq_nil_iff]
                intro p hp
                simp only [decide_eq_true_eq]
                exact fun hpk => hnotin ((hkey k).mpr ⟨p, hp, hpk⟩)
              rw [hfil, List.map_nil]
            rw [fiberSnd_concat, hfib]
            simp
          · rw [fiberSnd_concat, ← hmem k g₀ hg₀]
            simp
        · have hg' := (groupAppend_mem_ne _ _ _ _ _ hk).mp hg
          rw [fiberSnd_concat]
          simp only []
          rw [if_neg (fun h => hk h.symm), List.append_nil]
          exact hmem k g hg'
      · intro k
        rw [groupAppend_keys]
        by_cases hin : xk ∈ (groupPairs xs).map Prod.fst
        · rw [if_pos hin, hkey k]
          constructor
          · rintro ⟨p, hp, hpk⟩
            exact ⟨p, List.mem_append.mpr (.inl hp), hpk⟩
          · rintro ⟨p, hp, hpk⟩
            rcases List.mem_append.mp hp with h | h
            · exact ⟨p, h, hpk⟩
            · rw [List.mem_singleton] at h
              subst h
              simp only at hpk
              subst hpk
              exact (hkey xk).mp hin
        · rw [if_neg hin]
          rw [List.mem_append, List.mem_singleton, hkey k]
          constructor
          · rintro (⟨p, hp, hpk⟩ | rfl)
            · exact ⟨p, List.mem_append.mpr (.inl hp), hpk⟩
            · exact ⟨(k, xv), List.mem_append.mpr (.inr (by simp)), rfl⟩
          · rintro ⟨p, hp, hpk⟩
            rcases List.mem_append.mp hp with h | h
            · exact .inl ⟨p, h, hpk⟩
            · rw [List.mem_singleton] at h
              subst h
              simp only at hpk
              exact .inr hpk.symm

theorem gatherPairs_mem_iff (pairs : List (K × V)) (k : K) (g : List V) :
    (k, g) ∈ gatherPairs pairs
      ↔ 1 < (fiberSnd pairs k).length ∧ g = fiberSnd pairs k := by
  obtain ⟨hnd, hmem, hkey⟩ := groupPairs_represents pairs
  unfold gatherPairs
  rw [List.mem_filter]
  constructor
  · rintro ⟨hm, hlen⟩
    have hg := hmem k g hm
    subst hg
    exact ⟨by simpa using hlen, rfl⟩
  · rintro ⟨hlen, rfl⟩
    have hpos : (fiberSnd pairs k) ≠ [] := by
      intro hnil
      rw [hnil] at hlen
      simp at hlen
    have hk : k ∈ (groupPairs pairs).map Prod.fst := by
      apply (hkey k).mpr
      have : (pairs.filter (fun p => p.1 = k)) ≠ [] := by
        intro hnil
        apply hpos
        unfold fiberSnd
        rw [hnil, List.map_nil]
      obtain ⟨p, hp⟩ := List.exists_mem_of_ne_nil _ this
      have := List.mem_filter.mp hp
      exact ⟨p, this.1, by simpa using this.2⟩
    obtain ⟨p, hp, hp1⟩ := List.mem_map.mp hk
    obtain ⟨k', g'⟩ := p
    simp only at hp1
    subst hp1
    have := hmem k' g' hp
    subst this
    exact ⟨hp, by simpa using hlen⟩

end Dicts

instance {ε α : Type} [DecidableEq ε] [DecidableEq α] :
    DecidableEq (Except ε α) := fun a b =>
  match a, b with
  | .error e, .error e' =>
      if h : e = e' then .isTrue (congrArg Except.error h)
      else .isFalse (fun hh => h (Except.error.inj hh))
  | .ok x, .ok y =>
      if h : x = y then .isTrue (congrArg Except.ok h)
      else .isFalse (fun hh => h (Except.ok.inj hh))
  | .error _, .ok _ => .isFalse (fun hh => Except.noConfusion hh)
  | .ok _, .error _ => .isFalse (fun hh => Except.noConfusion hh)

/-! ## Identifier mapping (`ps/util.py`, `identifier_mapping`) -/

section IdentifierMapping

variable {K : Type} [DecidableEq K]

/-- The two failure modes of `identifier_mapping`: an exception raised by
the sanitizer while computing an identifier, or a collision report. -/
inductive MappingError (K : Type) where
  | sanitizeFailure (msg : String)
  | collision (groups : List (K × List String))

/-- Apply the (possibly failing) sanitizer to every string, left to
right, propagating its first exception: the evaluation order of the
comprehension `{str_to_id(string): string for string in strings}`. -/
def mapExceptIds (f : String → Except String K) : List String → Except String (List K)
  | [] => .ok []
  | s :: rest =>
      match f s with
      | .error e => .error e
      | .ok k =>
          match mapExceptIds f rest with
          | .error e => .error e
          | .ok ks => .ok (k :: ks)

/-- Model of `identifier_mapping` (`ps/util.py`): build the dict
`{str_to_id(string): string for string in strings}`; when its size
differs from the number of input strings, fail with the duplicate
groups (`_gather_duplicates(strings, str_to_id)`, computed here from
the already-sanitized pairs); otherwise return the dict. -/
def identifier_mapping (strings : List String)
    (str_to_id : String → Except String K) :
    Except (MappingError K) (List (K × String)) :=
  match mapExceptIds str_to_id strings with
  | .error e => .error (.sanitizeFailure e)
  | .ok ids =>
      let str_of_id := pyDictOfList (ids.zip strings)
      if str_of_id.length ≠ strings.length then
        .error (.collision (gatherPairs (ids.zip strings)))
      else
        .ok str_of_id

/-- For a sanitizer that never fails, the groups computed from the
sanitized pairs are exactly `_gather_duplicates` of the input values. -/
theorem gatherPairs_zip_eq_gather_duplicates {V : Type}
    (l : List V) (g : V → K) :
    gatherPairs ((l.map g).zip l) = _gather_duplicates l g := by
  unfold _gather_duplicates
  have h := List.zip_map' g id l
  rw [List.map_id] at h
  rw [h]
  simp only [id_eq]

theorem mapExceptIds_ok_iff (f : String → Except String K)
    (l : List String) (ids : List K) :
    mapExceptIds f l = .ok ids
      ↔ List.Forall₂ (fun s k => f s = .ok k) l ids := by
  induction l generalizing ids with
  | nil =>
      constructor
      · intro h
        simp only [mapExceptIds] at h
        cases h
        exact List.Forall₂.nil
      · intro h
        cases h
        rfl
  | cons s rest ih =>
      constructor
      · intro h
        simp only [mapExceptIds] at h
        cases hf : f s with
        | error e => rw [hf] at h; exact absurd h (by simp)
        | ok k =>
            rw [hf] at h
            cases hrest : mapExceptIds f rest with
            | error e => rw [hrest] at h; exact absurd h (by simp)
            | ok ks =>
                rw [hrest] at h
                simp only [Except.ok.injEq] at h
                subst h
                exact List.Forall₂.cons hf ((ih ks).mp hrest)
      · intro h
        cases h with
        | cons hf hrest =>
            rename_i k ks
            simp only [mapExceptIds, hf, (ih ks).mpr hrest]

theorem fiberSnd_cons {V : Type} (p : K × V) (rest : List (K × V)) (k0 : K) :
    fiberSnd (p :: rest) k0
      = (if p.1 = k0 then [p.2] else []) ++ fiberSnd rest k0 := by
  obtain ⟨k, v⟩ := p
  by_cases hk : k = k0 <;> simp [fiberSnd, List.filter_cons, hk]

theorem zip_fiber_eq (f : String → Except String K) (k0 : K) :
    ∀ {l : List String} {ids : List K},
      List.Forall₂ (fun s k => f s = .ok k) l ids →
      fiberSnd (ids.zip l) k0 = l.filter (fun s => f s = .ok k0) := by
  intro l ids h
  induction h with
  | nil => rfl
  | @cons s k l' ids' hsk htail ih =>
      rw [List.zip_cons_cons, fiberSnd_cons, List.filter_cons]
      by_cases hk : k = k0
      · subst hk
        simp [hsk, ih]
      · have hnot : ¬(f s = .ok k0) := by
          rw [hsk]
          simp [hk]
        simp [hk, hnot, ih]

theorem forall2_mem_left {α β : Type} {R : α → β → Prop} :
    ∀ {l : List α} {ids : List β}, List.Forall₂ R l ids →
      ∀ s ∈ l, ∃ k ∈ ids, R s k := by
  intro l ids h
  induction h with
  | nil => intro s hs; cases hs
  | @cons a b l' ids' hab htail ih =>
      intro s hs
      rcases List.mem_cons.mp hs with rfl | hs'
      · exact ⟨b, by simp, hab⟩
      · obtain ⟨k, hk, hR⟩ := ih s hs'
        exact ⟨k, by simp [hk], hR⟩

theorem forall2_nodup_left (f : String → Except String K) :
    ∀ {l : List String} {ids : List K},
      List.Forall₂ (fun s k => f s = .ok k) l ids → ids.Nodup → l.Nodup := by
  intro l ids h
  induction h with
  | nil => intro _; exact List.nodup_nil
  | @cons s k l' ids' hsk htail ih =>
      intro hnd
      rw [List.nodup_cons] at hnd ⊢
      refine ⟨?_, ih hnd.2⟩
      intro hs
      obtain ⟨k', hk', hrel⟩ := forall2_mem_left htail s hs
      have hkk : k = k' := by
        rw [hsk] at hrel
        exact Except.ok.inj hrel
      exact hnd.1 (hkk ▸ hk')

theorem zip_rel_of_forall2 {α β : Type} {R : α → β → Prop} :
    ∀ {l : List α} {ids : List β}, List.Forall₂ R l ids →
      ∀ p ∈ ids.zip l, R p.2 p.1 := by
  intro l ids h
  induction h with
  | nil => intro p hp; cases hp
  | @cons a b l' ids' hab htail ih =>
      intro p hp
      rw [List.zip_cons_cons, List.mem_cons] at hp
      rcases hp with rfl | hp'
      · exact hab
      · exact ih p hp'

theorem one_lt_length_of_two_mem {α : Type} {l : List α} {s t : α}
    (hs : s ∈ l) (ht : t ∈ l) (hne : s ≠ t) : 1 < l.length := by
  match l with
  | [] => cases hs
  | [a] =>
      rw [List.mem_singleton] at hs ht
      exact absurd (hs.trans ht.symm) hne
  | a :: b :: rest =>
      simp only [List.length_cons]
      omega

theorem exists_two_mem_of_one_lt_length {α : Type} {l : List α}
    (hnd : l.Nodup) (hlen : 1 < l.length) : ∃ s ∈ l, ∃ t ∈ l, s ≠ t := by
  match l with
  | [] => simp at hlen
  | [a] => simp at hlen
  | a :: b :: rest =>
      rw [List.nodup_cons] at hnd
      exact ⟨a, by simp, b, by simp, fun h => hnd.1 (h ▸ by simp)⟩

theorem count_eq_fiber_length (ids : List K) (k0 : K) :
    ids.count k0 = (ids.filter (fun x => x = k0)).length := by
  rw [List.count_eq_countP, List.countP_eq_length_filter]
  congr 1

theorem zip_filter_fst_length (str_to_id : String → Except String K) (k0 : K) :
    ∀ {l : List String} {ids : List K},
      List.Forall₂ (fun s k => str_to_id s = .ok k) l ids →
      ((ids.zip l).filter (fun p => p.1 = k0)).length
        = (ids.filter (fun x => x = k0)).length := by
  intro l ids h
  induction h with
  | nil => rfl
  | @cons s k l' ids' hsk htail ih =>
      rw [List.zip_cons_cons, List.filter_cons, List.filter_cons]
      by_cases hk : k = k0 <;> simp [hk, ih]

/-- C1 (amended): for pairwise-distinct input names on which the
sanitizer succeeds, `identifier_mapping` fails exactly when two distinct
input names sanitize to the same identifier; every failure is a
collision report, and that report contains, for each identifier, exactly
the full group of input names sanitizing to it when that group has at
least two members — identifiers with a single name never appear. -/
theorem identifier_mapping_collision_spec (strings : List String)
    (ids : List K) (str_to_id : String → Except String K)
    (hids : mapExceptIds str_to_id strings = .ok ids)
    (hnd : strings.Nodup) :
    ((∃ e, identifier_mapping strings str_to_id = .error e)
        ↔ ∃ s ∈ strings, ∃ t ∈ strings, s ≠ t ∧ str_to_id s = str_to_id t)
    ∧ (∀ groups,
        identifier_mapping strings str_to_id = .error (.collision groups) →
        ∀ k g, ((k, g) ∈ groups
          ↔ 1 < (strings.filter (fun s => str_to_id s = .ok k)).length
            ∧ g = strings.filter (fun s => str_to_id s = .ok k)))
    ∧ (∀ e, identifier_mapping strings str_to_id = .error e →
        ∃ groups, e = MappingError.collision groups) := by
  have hF := (mapExceptIds_ok_iff str_to_id strings ids).mp hids
  have hlen : strings.length = ids.length := hF.length_eq
  have hkeys : (ids.zip strings).map Prod.fst = ids :=
    List.map_fst_zip _ _ (by omega)
  have hziplen : (ids.zip strings).length = strings.length := by
    rw [List.length_zip]
    omega
  have hred : identifier_mapping strings str_to_id
      = if (pyDictOfList (ids.zip strings)).length ≠ strings.length
        then .error (.collision (gatherPairs (ids.zip strings)))
        else .ok (pyDictOfList (ids.zip strings)) := by
    unfold identifier_mapping
    rw [hids]
  have hcond : ((pyDictOfList (ids.zip strings)).length ≠ strings.length)
      ↔ ¬ ids.Nodup := by
    constructor
    · intro h hnodup
      apply h
      rw [pyDictOfList_of_nodup_keys _ (by rw [hkeys]; exact hnodup), hziplen]
    · intro h heq
      apply h
      have := (pyDictOfList_length_eq_iff (ids.zip strings)).mp
        (heq.trans hziplen.symm)
      rwa [hkeys] at this
  have hfib : ∀ k0,
      (strings.filter (fun s => str_to_id s = .ok k0)).length
        = ids.count k0 := by
    intro k0
    rw [count_eq_fiber_length]
    calc (strings.filter (fun s => str_to_id s = .ok k0)).length
        = (fiberSnd (ids.zip strings) k0).length := by
          rw [zip_fiber_eq str_to_id k0 hF]
      _ = ((ids.zip strings).filter (fun p => p.1 = k0)).length := by
          unfold fiberSnd
          rw [List.length_map]
      _ = (ids.filter (fun x => x = k0)).length :=
          zip_filter_fst_length str_to_id k0 hF
  have hnodup_iff : ¬ ids.Nodup
      ↔ ∃ s ∈ strings, ∃ t ∈ strings, s ≠ t ∧ str_to_id s = str_to_id t := by
    constructor
    · intro h
      rw [List.nodup_iff_count_le_one] at h
      push_neg at h
      obtain ⟨k0, hk0⟩ := h
      have hflen : 1 < (strings.filter (fun s => str_to_id s = .ok k0)).length := by
        rw [hfib k0]
        omega
      obtain ⟨s, hs, t, ht, hst⟩ :=
        exists_two_mem_of_one_lt_length (hnd.filter _) hflen
      have hs' := List.mem_filter.mp hs
      have ht' := List.mem_filter.mp ht
      refine ⟨s, hs'.1, t, ht'.1, hst, ?_⟩
      have h1 : str_to_id s = .ok k0 := by simpa using hs'.2
      have h2 : str_to_id t = .ok k0 := by simpa using ht'.2
      rw [h1, h2]
    · rintro ⟨s, hs, t, ht, hst, heq⟩ hnodup
      obtain ⟨k0, _, hrel⟩ := forall2_mem_left hF s hs
      have hsf : s ∈ strings.filter (fun u => str_to_id u = .ok k0) :=
        List.mem_filter.mpr ⟨hs, by simp [hrel]⟩
      have htf : t ∈ strings.filter (fun u => str_to_id u = .ok k0) :=
        List.mem_filter.mpr ⟨ht, by simp [heq ▸ hrel]⟩
      have hgt : 1 < (strings.filter (fun u => str_to_id u = .ok k0)).length :=
        one_lt_length_of_two_mem hsf htf hst
      rw [List.nodup_iff_count_le_one] at hnodup
      have hle := hnodup k0
      have hc := hfib k0
      omega
  refine ⟨?_, ?_, ?_⟩
  · rw [hred]
    by_cases hc : (pyDictOfList (ids.zip strings)).length ≠ strings.length
    · rw [if_pos hc]
      constructor
      · intro _
        exact hnodup_iff.mp (hcond.mp hc)
      · intro _
        exact ⟨_, rfl⟩
    · rw [if_neg hc]
      constructor
      · rintro ⟨e, he⟩
        exact absurd he (by simp)
      · intro hex
        exact absurd (hcond.mpr (hnodup_iff.mpr hex)) hc
  · intro groups hgroups
    rw [hred] at hgroups
    by_cases hc : (pyDictOfList (ids.zip strings)).length ≠ strings.length
    · rw [if_pos hc] at hgroups
      have hg : gatherPairs (ids.zip strings) = groups :=
        MappingError.collision.inj (Except.error.inj hgroups)
      intro k g
      rw [← hg, gatherPairs_mem_iff, zip_fiber_eq str_to_id k hF]
    · rw [if_neg hc] at hgroups
      exact absurd hgroups (by simp)
  · intro e he
    rw [hred] at he
    by_cases hc : (pyDictOfList (ids.zip strings)).length ≠ strings.length
    · rw [if_pos hc] at he
      exact ⟨_, (Except.error.inj he).symm⟩
    · rw [if_neg hc] at he
      exact absurd he (by simp)

/-- Witness for C1: the length-based sanitizer of the
`_gather_duplicates` doctest produces a collision on
`["this", "or", "that"]`. -/
theorem identifier_mapping_collision_spec_witness :
    ∃ e, identifier_mapping ["this", "or", "that"]
        (fun s => (.ok s.length : Except String Nat)) = .error e :=
  (identifier_mapping_collision_spec ["this", "or", "that"] [4, 2, 4]
      (fun s => .ok s.length) rfl (by decide)).1.mpr
    ⟨"this", by decide, "that", by decide, by decide, rfl⟩

/-- C1 counterexample: on the input `["a", "a"]` — the same name twice —
`identifier_mapping` fails even though no two distinct input names
sanitize to the same identifier. -/
theorem identifier_mapping_duplicate_input_counterexample :
    (∃ e, identifier_mapping ["a", "a"] str_to_identifier = .error e)
    ∧ ¬ ∃ s ∈ (["a", "a"] : List String), ∃ t ∈ (["a", "a"] : List String),
        s ≠ t ∧ str_to_identifier s = str_to_identifier t := by
  constructor
  · exact ⟨.collision [("a", ["a", "a"])], by rfl⟩
  · rintro ⟨s, hs, t, ht, hne, -⟩
    simp only [List.mem_cons, List.mem_singleton, List.not_mem_nil,
      or_false] at hs ht
    rcases hs with rfl | rfl <;> rcases ht with heq | heq <;> exact hne heq.symm

/-- C2: when the sanitized identifiers are pairwise distinct,
`identifier_mapping` succeeds with the identifier-keyed pairs: every
input name appears as a value exactly once (the values are exactly the
input names, which are then pairwise distinct), each keyed by its
sanitized identifier; in particular
`identifier_mapping ["ls", "cat"]` with the default sanitizer returns
`{"ls": "ls", "cat": "cat"}`. -/
theorem identifier_mapping_success_spec (strings : List String)
    (ids : List K) (str_to_id : String → Except String K)
    (hids : mapExceptIds str_to_id strings = .ok ids)
    (hnd : ids.Nodup) :
    identifier_mapping strings str_to_id = .ok (ids.zip strings)
    ∧ (ids.zip strings).map Prod.snd = strings
    ∧ strings.Nodup
    ∧ (∀ p ∈ ids.zip strings, str_to_id p.2 = .ok p.1)
    ∧ identifier_mapping ["ls", "cat"] str_to_identifier
        = .ok [("ls", "ls"), ("cat", "cat")] := by
  have hF := (mapExceptIds_ok_iff str_to_id strings ids).mp hids
  have hlen : strings.length = ids.length := hF.length_eq
  have hkeys : (ids.zip strings).map Prod.fst = ids :=
    List.map_fst_zip _ _ (by omega)
  have hdict : pyDictOfList (ids.zip strings) = ids.zip strings :=
    pyDictOfList_of_nodup_keys _ (by rw [hkeys]; exact hnd)
  have hziplen : (ids.zip strings).length = strings.length := by
    rw [List.length_zip]
    omega
  refine ⟨?_, List.map_snd_zip _ _ (by omega),
    forall2_nodup_left str_to_id hF hnd, zip_rel_of_forall2 hF, by rfl⟩
  unfold identifier_mapping
  rw [hids]
  have hcnd : ¬ ((pyDictOfList (ids.zip strings)).length ≠ strings.length) := by
    rw [hdict, hziplen]
    intro h
    exact h rfl
  show (if (pyDictOfList (ids.zip strings)).length ≠ strings.length
        then Except.error (MappingError.collision (gatherPairs (ids.zip strings)))
        else Except.ok (pyDictOfList (ids.zip strings)))
      = Except.ok (ids.zip strings)
  rw [if_neg hcnd, hdict]

/-- Witness for C2 at the concrete input of the specification. -/
theorem identifier_mapping_success_spec_witness :
    identifier_mapping ["ls", "cat"] str_to_identifier
        = .ok [("ls", "ls"), ("cat", "cat")]
    ∧ ((["ls", "cat"] : List String).Nodup) :=
  ⟨(identifier_mapping_success_spec ["ls", "cat"] ["ls", "cat"]
      str_to_identifier rfl (by decide)).1,
   (identifier_mapping_success_spec ["ls", "cat"] ["ls", "cat"]
      str_to_identifier rfl (by decide)).2.2.1⟩

end IdentifierMapping

/-! ## Command invoker and namespace (`ps/base.py`) -/

/-- An `args` value: either a single string or a sequence of strings. -/
inductive StrOrStrs where
  | str (s : String)
  | strs (xs : List String)

/-- Model of `join_if_not_string`: join the elements with single spaces unless
the value is already a string. -/
def join_if_not_string : StrOrStrs → String
  | .str s => s
  | .strs xs => " ".intercalate xs

/-- The `Command` dataclass: wraps exactly one raw command name. -/
structure Command where
  command : String

/-- Model of `Command.instruction_str`: the f-string
`f'{self.command} {args_str}'` over the joined arguments. -/
def Command.instruction_str (self : Command) (args : StrOrStrs) : String :=
  self.command ++ " " ++ join_if_not_string args

/-- Model of `mk_raw_command_func`: builds a callable that hands
`command_args_str + ' ' + command` to the external process runner
(abstracted as `run`). -/
def mk_raw_command_func (run : String → String) (command : String) :
    String → String :=
  fun command_args_str => run (command_args_str ++ " " ++ command)

/-- Model of `str.isidentifier` (ASCII reading): non-empty, first character a
letter or underscore, the rest letters, digits or underscores. -/
def pyIsIdentifier (s : String) : Bool :=
  match s.data with
  | [] => false
  | c :: rest =>
      (c.isAlpha || c = '_') && rest.all (fun d => d.isAlphanum || d = '_')

/-- The polymorphic `commands` argument (`IdentifiedCommands`): an
identifier-keyed mapping, a bare iterable of names, or a zero-argument
callable producing a mapping. -/
inductive IdentifiedCommands where
  | mapping (d : List (String × String))
  | names (xs : List String)
  | producer (f : Unit → List (String × String))

/-- The normalization step of `_ensure_identifier_keyed_dict`: call a
callable, copy a mapping with `dict(...)`, or build `{x: x for x in
commands}` from an iterable. -/
def normalizeCommands : IdentifiedCommands → List (String × String)
  | .producer f => pyDictOfList (f ())
  | .mapping d0 => pyDictOfList d0
  | .names xs => pyDictOfList (xs.map (fun x => (x, x)))

/-- Model of `_ensure_identifier_keyed_dict`: normalize, then fail with the list
of every non-identifier key if there is one. -/
def _ensure_identifier_keyed_dict (commands : IdentifiedCommands) :
    Except (List String) (List (String × String)) :=
  let d := normalizeCommands commands
  let non_identifier_keys := (d.map Prod.fst).filter (fun k => !(pyIsIdentifier k))
  if non_identifier_keys.isEmpty then .ok d else .error non_identifier_keys

/-- The values a `Commands` object's instance attributes can take: the
stored commands dict, an invoker built by the factory, or the stored
factory itself. -/
inductive PyAttr (α : Type) where
  | commandsDict (d : List (String × String))
  | invoker (c : α)
  | runnerFactory

/-- A constructed `Commands` object: its instance-attribute dict, in
assignment order. -/
structure Commands (α : Type) where
  attrs : List (String × PyAttr α)

/-- Model of `Commands.__init__`: validate and store the dict in `_commands`,
`setattr` one invoker per entry, then store the factory in
`_command_runner_factory`. -/
def Commands.init (α : Type) (commands : IdentifiedCommands)
    (factory : String → α) : Except (List String) (Commands α) :=
  match _ensure_identifier_keyed_dict commands with
  | .error e => .error e
  | .ok d =>
      let a0 := pyDictInsert [] "_commands" (PyAttr.commandsDict d)
      let a1 := d.foldl
        (fun a p => pyDictInsert a p.1 (PyAttr.invoker (factory p.2))) a0
      let a2 := pyDictInsert a1 "_command_runner_factory" PyAttr.runnerFactory
      .ok { attrs := a2 }

/-- Model of `getattr(self, name)` over the instance attributes. -/
def Commands.getattrOpt {α : Type} (self : Commands α) (name : String) :
    Option (PyAttr α) :=
  (self.attrs.find? (fun p => p.1 = name)).map Prod.snd

/-- Model of `Commands.__getitem__`: `getattr`, turning an `AttributeError` into
a `KeyError` (`CommandNotFoundError`). -/
def Commands.getitem {α : Type} (self : Commands α) (command : String) :
    Except String (PyAttr α) :=
  match self.getattrOpt command with
  | some v => .ok v
  | none => .error ("This command was not found: " ++ command)

/-- The value of `self._commands`, when it still holds the dict. -/
def Commands.commandsAttr {α : Type} (self : Commands α) :
    Option (List (String × String)) :=
  match self.getattrOpt "_commands" with
  | some (PyAttr.commandsDict d) => some d
  | _ => none

/-- Model of `Commands.__len__`: `len(self._commands)`. -/
def Commands.len {α : Type} (self : Commands α) : Option Nat :=
  (self.commandsAttr).map List.length

/-- Model of `Commands.__iter__`: yields the keys of `self._commands`. -/
def Commands.iterKeys {α : Type} (self : Commands α) : Option (List String) :=
  (self.commandsAttr).map (List.map Prod.fst)

/-- Model of `Commands.__contains__`: `command in self._commands`. -/
def Commands.containsKey {α : Type} (self : Commands α) (command : String) :
    Option Bool :=
  (self.commandsAttr).map (fun d => (d.map Prod.fst).contains command)

/-- C6: namespace construction fails exactly when the normalized mapping
has at least one non-identifier key, the error lists every offending
key (in order), success returns the normalized mapping itself, and the
key "not-an-identifier" fails naming exactly that key. -/
theorem ensure_identifier_keyed_dict_spec (commands : IdentifiedCommands) :
    ((∃ e, _ensure_identifier_keyed_dict commands = .error e)
      ↔ ∃ k ∈ (normalizeCommands commands).map Prod.fst, ¬ pyIsIdentifier k)
    ∧ (∀ e, _ensure_identifier_keyed_dict commands = .error e →
        e = ((normalizeCommands commands).map Prod.fst).filter
              (fun k => !(pyIsIdentifier k)))
    ∧ ((¬ ∃ k ∈ (normalizeCommands commands).map Prod.fst, ¬ pyIsIdentifier k) →
        _ensure_identifier_keyed_dict commands = .ok (normalizeCommands commands))
    ∧ _ensure_identifier_keyed_dict (.mapping [("not-an-identifier", "x")])
        = .error ["not-an-identifier"] := by
  have hbad : ∀ e, _ensure_identifier_keyed_dict commands = .error e →
      e = ((normalizeCommands commands).map Prod.fst).filter
            (fun k => !(pyIsIdentifier k)) := by
    intro e he
    unfold _ensure_identifier_keyed_dict at he
    by_cases h : (((normalizeCommands commands).map Prod.fst).filter
        (fun k => !(pyIsIdentifier k))).isEmpty
    · rw [if_pos h] at he
      exact absurd he (by simp)
    · rw [if_neg h] at he
      exact (Except.error.inj he).symm
  have hiff : (¬ (((normalizeCommands commands).map Prod.fst).filter
        (fun k => !(pyIsIdentifier k))).isEmpty)
      ↔ ∃ k ∈ (normalizeCommands commands).map Prod.fst, ¬ pyIsIdentifier k := by
    rw [List.isEmpty_iff]
    constructor
    · intro h
      obtain ⟨k, hk⟩ := List.exists_mem_of_ne_nil _ h
      have := List.mem_filter.mp hk
      exact ⟨k, this.1, by simpa using this.2⟩
    · rintro ⟨k, hk, hbadk⟩ hnil
      have : k ∈ ((normalizeCommands commands).map Prod.fst).filter
          (fun k => !(pyIsIdentifier k)) :=
        List.mem_filter.mpr ⟨hk, by simpa using hbadk⟩
      rw [hnil] at this
      cases this
  refine ⟨?_, hbad, ?_, by rfl⟩
  · constructor
    · rintro ⟨e, he⟩
      apply hiff.mp
      intro hempty
      unfold _ensure_identifier_keyed_dict at he
      rw [if_pos hempty] at he
      exact absurd he (by simp)
    · intro hex
      unfold _ensure_identifier_keyed_dict
      rw [if_neg (fun hempty => hiff.mpr hex hempty)]
      exact ⟨_, rfl⟩
  · intro hnone
    unfold _ensure_identifier_keyed_dict
    rw [if_pos ?_]
    by_contra h
    exact hnone (hiff.mp (by simpa [List.isEmpty_iff] using h))

/-- Witness for C6 at concrete inputs. -/
theorem ensure_identifier_keyed_dict_spec_witness :
    _ensure_identifier_keyed_dict (.mapping [("ls", "ls")]) = .ok [("ls", "ls")]
    ∧ _ensure_identifier_keyed_dict (.mapping [("not-an-identifier", "x")])
        = .error ["not-an-identifier"] :=
  ⟨(ensure_identifier_keyed_dict_spec (.mapping [("ls", "ls")])).2.2.1
      (by decide),
   (ensure_identifier_keyed_dict_spec (.mapping [("ls", "ls")])).2.2.2⟩

/-- C7: on the namespace built from `{"ls": "ls"}`, length, membership,
iteration, entry lookup and missing-name lookup behave as claimed, but
looking up the non-entry identifier `_commands` returns the internal
dict attribute instead of failing with `CommandNotFoundError`. -/
theorem commands_getitem_internal_attribute_bug :
    ∃ o : Commands Command,
      Commands.init Command (.mapping [("ls", "ls")]) Command.mk = .ok o
      ∧ o.len = some 1
      ∧ o.containsKey "ls" = some true
      ∧ o.containsKey "missing" = some false
      ∧ o.containsKey "_commands" = some false
      ∧ o.iterKeys = some ["ls"]
      ∧ o.getitem "ls" = .ok (PyAttr.invoker (Command.mk "ls"))
      ∧ (∃ msg, o.getitem "missing" = .error msg)
      ∧ o.getitem "_commands" = .ok (PyAttr.commandsDict [("ls", "ls")]) :=
  ⟨_, rfl, rfl, rfl, rfl, rfl, rfl, rfl, ⟨_, rfl⟩, rfl⟩

/-- C8: the instruction string is the raw command name, one space, then
the args string (a sequence is first joined with single spaces); in
particular `echo` with `["hello", "world"]` gives "echo hello world". -/
theorem command_instruction_str_spec :
    (∀ c s : String,
        (Command.mk c).instruction_str (.str s) = c ++ " " ++ s)
    ∧ (∀ (c : String) (xs : List String),
        (Command.mk c).instruction_str (.strs xs)
          = c ++ " " ++ " ".intercalate xs)
    ∧ (Command.mk "echo").instruction_str (.strs ["hello", "world"])
        = "echo hello world" :=
  ⟨fun _ _ => rfl, fun _ _ => rfl, rfl⟩

/-! ## Path scanner (`ps/util.py`, `local_commands`)

Python's `sorted` on strings orders them lexicographically by code
point; that comparison is embedded structurally so witnesses can
evaluate it. Python sets have no inherent order, so a set is modelled
by its canonical sorted, duplicate-free list. -/

/-- Lexicographic comparison of character lists by code point. -/
def charListLe : List Char → List Char → Bool
  | [], _ => true
  | _ :: _, [] => false
  | a :: as, b :: bs =>
      if a.toNat < b.toNat then true
      else if b.toNat < a.toNat then false
      else charListLe as bs

/-- Python's `<=` on strings: lexicographic by code point. -/
def strLe (a b : String) : Bool :=
  charListLe a.data b.data

theorem charListLe_total : ∀ as bs,
    (charListLe as bs || charListLe bs as) = true := by
  intro as
  induction as with
  | nil => intro bs; simp [charListLe]
  | cons a as' ih =>
      intro bs
      cases bs with
      | nil => simp [charListLe]
      | cons b bs' =>
          simp only [charListLe]
          by_cases hab : a.toNat < b.toNat <;>
            by_cases hba : b.toNat < a.toNat <;>
            simp [hab, hba] <;>
            first
              | omega
              | (have h := ih bs'
                 rw [Bool.or_eq_true] at h
                 simpa using h)

theorem charListLe_trans : ∀ as bs cs, charListLe as bs = true →
    charListLe bs cs = true → charListLe as cs = true := by
  intro as
  induction as with
  | nil => intro bs cs _ _; rfl
  | cons a as' ih =>
      intro bs cs h1 h2
      cases bs with
      | nil => simp [charListLe] at h1
      | cons b bs' =>
          cases cs with
          | nil => simp [charListLe] at h2
          | cons c cs' =>
              simp only [charListLe] at h1 h2 ⊢
              by_cases hab : a.toNat < b.toNat <;>
                by_cases hba : b.toNat < a.toNat <;>
                by_cases hbc : b.toNat < c.toNat <;>
                by_cases hcb : c.toNat < b.toNat <;>
                by_cases hac : a.toNat < c.toNat <;>
                by_cases hca : c.toNat < a.toNat <;>
                simp [hab, hba, hbc, hcb, hac, hca] at h1 h2 ⊢ <;>
                first
                  | omega
                  | exact ih bs' cs' h1 h2

theorem charListLe_antisymm : ∀ as bs, charListLe as bs = true →
    charListLe bs as = true → as = bs := by
  intro as
  induction as with
  | nil =>
      intro bs _ h2
      cases bs with
      | nil => rfl
      | cons b bs' => simp [charListLe] at h2
  | cons a as' ih =>
      intro bs h1 h2
      cases bs with
      | nil => simp [charListLe] at h1
      | cons b bs' =>
          simp only [charListLe] at h1 h2
          by_cases hab : a.toNat < b.toNat <;>
            by_cases hba : b.toNat < a.toNat <;>
            simp [hab, hba] at h1 h2
          · omega
          · have htn : a.toNat = b.toNat := by omega
            have hcc : a = b := Char.eq_of_val_eq (UInt32.toNat.inj htn)
            rw [hcc, ih bs' h1 h2]

theorem strLe_total (a b : String) : (strLe a b || strLe b a) = true :=
  charListLe_total a.data b.data

theorem strLe_trans (a b c : String) (h1 : strLe a b = true)
    (h2 : strLe b c = true) : strLe a c = true :=
  charListLe_trans a.data b.data c.data h1 h2

theorem strLe_antisymm (a b : String) (h1 : strLe a b = true)
    (h2 : strLe b a = true) : a = b := by
  have h := charListLe_antisymm a.data b.data h1 h2
  cases a
  cases b
  simp only at h
  rw [h]

instance : IsTotal String (fun a b => strLe a b = true) :=
  ⟨fun a b => by
    have h := strLe_total a b
    rw [Bool.or_eq_true] at h
    exact h⟩

instance : IsTrans String (fun a b => strLe a b = true) :=
  ⟨fun a b c => strLe_trans a b c⟩

instance : IsAntisymm String (fun a b => strLe a b = true) :=
  ⟨fun a b => strLe_antisymm a b⟩

/-- Model of `sorted(set(l))`: the canonical sorted, duplicate-free list holding
the elements of `l`. -/
def sortedSet (l : List String) : List String :=
  List.insertionSort (fun a b => strLe a b = true) l.dedup

theorem sortedSet_perm_dedup (l : List String) : (sortedSet l).Perm l.dedup :=
  List.perm_insertionSort _ _

theorem sortedSet_mem (a : String) (l : List String) :
    a ∈ sortedSet l ↔ a ∈ l := by
  rw [(sortedSet_perm_dedup l).mem_iff, List.mem_dedup]

theorem sortedSet_nodup (l : List String) : (sortedSet l).Nodup :=
  ((sortedSet_perm_dedup l).nodup_iff).mpr (List.nodup_dedup l)

theorem sortedSet_sorted (l : List String) :
    (sortedSet l).Sorted (fun a b => strLe a b = true) :=
  List.sorted_insertionSort _ _

theorem sortedSet_eq_of_perm (l l' : List String) (h : l.Perm l') :
    sortedSet l = sortedSet l' :=
  List.eq_of_perm_of_sorted
    ((sortedSet_perm_dedup l).trans (h.dedup.trans (sortedSet_perm_dedup l').symm))
    (sortedSet_sorted l) (sortedSet_sorted l')

/-- The filesystem queries `local_commands` depends on. -/
structure FileSystem where
  isDir : String → Bool
  listdir : String → List String
  is_executable_file : String → Bool

/-- Model of `os.path.join` for POSIX paths. -/
def os_path_join (d f : String) : String :=
  if f.startsWith "/" then f
  else if d = "" || d.endsWith "/" then d ++ f
  else d ++ "/" ++ f

/-- Model of `_executables_of_dir`: the filenames in `dirpath` whose full path is
an executable regular file. -/
def _executables_of_dir (fs : FileSystem) (dirpath : String) : List String :=
  (fs.listdir dirpath).filter
    (fun filename => fs.is_executable_file (os_path_join dirpath filename))

/-- Model of `_keep_only_existing_paths`: drop empty entries, split the set of
paths into non-existing and existing directories; the first component
is the non-existing set (reported in the warning), the second the
sorted existing set. -/
def _keep_only_existing_paths (fs : FileSystem) (dirpaths : List String) :
    List String × List String :=
  let dirSet := sortedSet (dirpaths.filter (fun p => p ≠ ""))
  (dirSet.filter (fun p => !(fs.isDir p)), dirSet.filter fs.isDir)

/-- Python's `str.split` on a single-character separator, over the
character list: every separator occurrence splits, keeping empty
pieces, and the empty string yields `[""]`. -/
def splitCharList (sep : Char) : List Char → List (List Char)
  | [] => [[]]
  | c :: rest =>
      let r := splitCharList sep rest
      if c = sep then [] :: r
      else
        match r with
        | [] => [[c]]
        | g :: gs => (c :: g) :: gs

/-- Python's `s.split(sep)` for a one-character separator. -/
def pySplit (s : String) (sep : Char) : List String :=
  (splitCharList sep s.data).map (fun g => String.mk g)

/-- Model of `local_commands`: split the PATH variable on colons, keep existing
directories, warn (`Bool` flag) about non-existing ones only when
`verbose`, and return the sorted deduplicated union of the executable
filenames found. -/
def local_commands (fs : FileSystem) (path_env : String) (verbose : Bool) :
    Bool × List String :=
  let kept := _keep_only_existing_paths fs (pySplit path_env ':')
  let warned := verbose && !kept.1.isEmpty
  let commands := kept.2.flatMap (fun d => _executables_of_dir fs d)
  (warned, sortedSet commands)

/-- A concrete two-directory filesystem used to exercise the scan. -/
def demoFS : FileSystem where
  isDir := fun d => d = "/bin" || d = "/usr/bin"
  listdir := fun d =>
    if d = "/bin" then ["ls", "cat", "subdir"]
    else if d = "/usr/bin" then ["awk", "ls"]
    else []
  is_executable_file := fun p =>
    p = "/bin/ls" || p = "/bin/cat" || p = "/usr/bin/awk" || p = "/usr/bin/ls"

/-- C9: the scan never fails (it is a total function); it warns exactly
when `verbose` is set and a non-empty entry is not a directory; a
command is in the result exactly when it is an executable filename of
some existing directory named by a non-empty entry; the result is
deduplicated and sorted; and it does not depend on the order of the
(non-empty) search-path entries. -/
theorem local_commands_spec (fs : FileSystem) (path_env : String)
    (verbose : Bool) :
    ((local_commands fs path_env verbose).1 = true
        ↔ verbose = true
          ∧ ∃ d ∈ pySplit path_env ':', d ≠ "" ∧ fs.isDir d = false)
    ∧ (∀ c, c ∈ (local_commands fs path_env verbose).2
        ↔ ∃ d ∈ pySplit path_env ':', d ≠ "" ∧ fs.isDir d = true
            ∧ c ∈ _executables_of_dir fs d)
    ∧ (local_commands fs path_env verbose).2.Nodup
    ∧ (local_commands fs path_env verbose).2.Sorted (fun a b => strLe a b = true)
    ∧ (∀ (path_env' : String) (verbose' : Bool),
        ((pySplit path_env ':').filter (fun p => p ≠ "")).Perm
          ((pySplit path_env' ':').filter (fun p => p ≠ "")) →
        (local_commands fs path_env verbose).2
          = (local_commands fs path_env' verbose').2) := by
  have hval : ∀ (p : String) (v : Bool),
      (local_commands fs p v).2
        = sortedSet (((sortedSet ((pySplit p ':').filter (fun q => q ≠ ""))).filter
            fs.isDir).flatMap (fun d => _executables_of_dir fs d)) :=
    fun p v => rfl
  have hwarn : ∀ (p : String) (v : Bool),
      (local_commands fs p v).1
        = (v && !(((sortedSet ((pySplit p ':').filter (fun q => q ≠ ""))).filter
            (fun q => !(fs.isDir q))).isEmpty)) :=
    fun p v => rfl
  refine ⟨?_, ?_, ?_, ?_, ?_⟩
  · rw [hwarn, Bool.and_eq_true]
    constructor
    · rintro ⟨hv, hne⟩
      refine ⟨hv, ?_⟩
      rw [Bool.not_eq_true'] at hne
      have hnil : ((sortedSet ((pySplit path_env ':').filter
          (fun q => q ≠ ""))).filter (fun q => !(fs.isDir q))) ≠ [] := by
        intro hn
        rw [hn] at hne
        simp at hne
      obtain ⟨d, hd⟩ := List.exists_mem_of_ne_nil _ hnil
      have hd' := List.mem_filter.mp hd
      have hd'' := List.mem_filter.mp ((sortedSet_mem _ _).mp hd'.1)
      exact ⟨d, hd''.1, by simpa using hd''.2, by simpa using hd'.2⟩
    · rintro ⟨hv, d, hd, hdne, hdir⟩
      refine ⟨hv, ?_⟩
      have hdmem : d ∈ (sortedSet ((pySplit path_env ':').filter
          (fun q => q ≠ ""))).filter (fun q => !(fs.isDir q)) :=
        List.mem_filter.mpr
          ⟨(sortedSet_mem _ _).mpr (List.mem_filter.mpr ⟨hd, by simp [hdne]⟩),
           by simp [hdir]⟩
      rw [Bool.not_eq_true']
      cases hemp : ((sortedSet ((pySplit path_env ':').filter
          (fun q => q ≠ ""))).filter (fun q => !(fs.isDir q))).isEmpty with
      | false => rfl
      | true =>
          rw [List.isEmpty_iff] at hemp
          rw [hemp] at hdmem
          cases hdmem
  · intro c
    rw [hval, sortedSet_mem, List.mem_flatMap]
    constructor
    · rintro ⟨d, hd, hc⟩
      have hd' := List.mem_filter.mp hd
      have hd'' := List.mem_filter.mp ((sortedSet_mem _ _).mp hd'.1)
      exact ⟨d, hd''.1, by simpa using hd''.2, by simpa using hd'.2, hc⟩
    · rintro ⟨d, hd, hdne, hdir, hc⟩
      exact ⟨d, List.mem_filter.mpr
        ⟨(sortedSet_mem _ _).mpr (List.mem_filter.mpr ⟨hd, by simp [hdne]⟩),
         by simp [hdir]⟩, hc⟩
  · rw [hval]
    exact sortedSet_nodup _
  · rw [hval]
    exact sortedSet_sorted _
  · intro p' v' hperm
    rw [hval path_env verbose, hval p' v',
      sortedSet_eq_of_perm _ _ hperm]

/-- Witness for C9: a PATH with a non-existing entry warns and scans;
permuting the directories (and inserting an empty entry) leaves the
result unchanged. -/
theorem local_commands_spec_witness :
    (local_commands demoFS "/usr/bin:/bin:/nope" true).1 = true
    ∧ (local_commands demoFS "/bin:/usr/bin" true).2
        = (local_commands demoFS "/usr/bin::/bin" false).2 :=
  ⟨(local_commands_spec demoFS "/usr/bin:/bin:/nope" true).1.mpr
      ⟨rfl, "/nope", by decide, by decide, by decide⟩,
   (local_commands_spec demoFS "/bin:/usr/bin" true).2.2.2.2
      "/usr/bin::/bin" false (by decide)⟩

/-- C10: the callable built by `mk_raw_command_func` hands the runner
`args + ' ' + command` — the command name is appended after the args,
the opposite order of `Command.instruction_str`, which prepends it. -/
theorem mk_raw_command_func_appends_command :
    (∀ (run : String → String) (command a : String),
        mk_raw_command_func run command a = run (a ++ " " ++ command))
    ∧ mk_raw_command_func id "echo" "hello" = "hello echo"
    ∧ (Command.mk "echo").instruction_str (.str "hello") = "echo hello" :=
  ⟨fun _ _ _ => rfl, rfl, rfl⟩

end Ps
